import Mathlib

/-!
Shallow embedding of `src/main.rs` of `sort_uniq_c`: a frequency counter
over input lines (word mode and character mode) followed by a ranked
renderer (aligned table via `cli_table`, or delimiter-separated lines).

Conventions of the embedding:
* Rust's `HashMap<String, usize>` is modelled as an association list
  `List (String × Nat)` with unique keys, kept in first-insertion order;
  `entry(k).and_modify(|x| *x += 1).or_insert(1)` is `incrementCount`.
* The fallible line iterator `BufRead::lines()` is a `List (Option String)`:
  `some s` is a successfully decoded line, `none` a decoding error, on which
  the Rust code panics (`line.unwrap()`); panicking is modelled by the
  counting functions returning `none`.
* `usize::to_string()` is `natToString`, decimal rendering of a `Nat`.
* `itertools::sorted_by(|a, b| Ord::cmp(&b.1, &a.1))` (a stable sort by
  descending count) is `List.insertionSort rankLe`, which is also stable.
* `println!`-produced output is modelled as the list of printed lines.
-/

/-- A frequency table: association list from record to count, unique keys. -/
abbrev FrequencyTable := List (String × Nat)

/-- `count.entry(word).and_modify(|x| *x += 1).or_insert(1)` on an
association-list map: bump the count of `k`, inserting it at 1 if absent
(new keys go to the back, i.e. first-insertion order is kept). -/
def incrementCount : FrequencyTable → String → FrequencyTable
  | [], k => [(k, 1)]
  | (k', c) :: rest, k =>
    if k' = k then (k', c + 1) :: rest else (k', c) :: incrementCount rest k

/-- Count associated to key `k` in the table, `0` when absent. -/
def lookupCount : FrequencyTable → String → Nat
  | [], _ => 0
  | (k', c) :: rest, k => if k' = k then c else lookupCount rest k

/-- The decimal digit character for `d < 10` (code point 48 is `'0'`). -/
def digitChar (d : Nat) : Char := Char.ofNat (48 + d)

/-- Digits of `n` in base 10, least significant first; structural recursion
on a fuel argument (callers pass `n` itself, which is always enough). -/
def natDigitsRevAux : Nat → Nat → List Char
  | 0, _ => []
  | fuel + 1, n =>
    if n = 0 then [] else digitChar (n % 10) :: natDigitsRevAux fuel (n / 10)

/-- Digits of `n` in base 10, least significant first (empty for `0`). -/
def natDigitsRev (n : Nat) : List Char := natDigitsRevAux n n

/-- Rust's `usize::to_string()`: decimal rendering of a natural number. -/
def natToString (n : Nat) : String :=
  if n = 0 then "0" else String.mk (natDigitsRev n).reverse

/-- The Record derived from a line in character mode:
`line.chars().filter(|&c| c == character).count().to_string()`. -/
def charRecord (character : Char) (line : String) : String :=
  natToString (line.data.count character)

/-- The loop of `word_count_in_buf_reader`, with the table accumulated so
far; a `none` line makes the whole computation fail (`line.unwrap()`). -/
def wordCountAux : List (Option String) → FrequencyTable → Option FrequencyTable
  | [], t => some t
  | none :: _, _ => none
  | some w :: rest, t => wordCountAux rest (incrementCount t w)

/-- `fn word_count_in_buf_reader<R: BufRead>(buf_reader: R) -> HashMap<String, usize>`:
tally each decoded line verbatim. -/
def word_count_in_buf_reader (input : List (Option String)) : Option FrequencyTable :=
  wordCountAux input []

/-- The loop of `character_count_in_buf_reader`. -/
def charCountAux (character : Char) :
    List (Option String) → FrequencyTable → Option FrequencyTable
  | [], t => some t
  | none :: _, _ => none
  | some line :: rest, t =>
    charCountAux character rest (incrementCount t (charRecord character line))

/-- `fn character_count_in_buf_reader<R: BufRead>(buf_reader: R, character: char)`:
tally, per line, the decimal string of the number of occurrences of
`character` in the line. -/
def character_count_in_buf_reader (input : List (Option String)) (character : Char) :
    Option FrequencyTable :=
  charCountAux character input []

/-- The comparator of `sorted_by(|a, b| Ord::cmp(&b.1, &a.1))`: `a` may come
before `b` exactly when `a`'s count is at least `b`'s. -/
def rankLe (a b : String × Nat) : Prop := b.2 ≤ a.2

instance : DecidableRel rankLe := fun a b => Nat.decLe b.2 a.2

instance : IsTotal (String × Nat) rankLe := ⟨fun a b => Nat.le_total b.2 a.2⟩

instance : IsTrans (String × Nat) rankLe :=
  ⟨fun _ _ _ h1 h2 => Nat.le_trans h2 h1⟩

/-- The ranked entries: the table's entries stably sorted by descending
count, as `word_count.into_iter().sorted_by(|a, b| Ord::cmp(&b.1, &a.1))`
does in both renderers. -/
def rankEntries (word_count : FrequencyTable) : List (String × Nat) :=
  List.insertionSort rankLe word_count

/-- The observable row structure of the `cli_table` output built by
`print_word_count_table`: the bold title row, the presence of the
horizontal separator under it, and the data rows in ranked order. -/
structure RenderedTable where
  header : List String
  hasTitleSeparator : Bool
  rows : List (List String)
  deriving DecidableEq

/-- `fn print_word_count_table(word_count, character)`: title
`Word`/`Occurrences` and `Count`, a title separator, and one row per ranked
entry. -/
def print_word_count_table (word_count : FrequencyTable) (character : Option Char) :
    RenderedTable :=
  { header := [if character.isSome then "Occurrences" else "Word", "Count"]
    hasTitleSeparator := true
    rows := (rankEntries word_count).map (fun p => [p.1, natToString p.2]) }

/-- `fn print_word_count_csv(word_count, delimiter)`: for each ranked entry,
`println!("{}{}{}", word, &delimiter, count)` — one output line per entry,
and nothing else (in particular no header line). -/
def print_word_count_csv (word_count : FrequencyTable) (delimiter : Char) :
    List String :=
  (rankEntries word_count).map
    (fun p => p.1 ++ String.singleton delimiter ++ natToString p.2)

/-- Drop one trailing `'\r'` from a REVERSED line buffer, as `lines()` does
after it has dropped the terminating `'\n'`. -/
def stripCrRev : List Char → List Char
  | [] => []
  | c :: rest => if c = '\r' then rest else c :: rest

/-- The loop of Rust's `BufRead::lines()` over the raw character stream:
`acc` is the current line read so far, in reverse.  On `'\n'` the line is
emitted with one trailing `'\r'` (if any) removed; at end of stream a
nonempty final fragment is emitted verbatim (no stripping, since it has no
terminating newline). -/
def rustLinesAux : List Char → List Char → List String
  | [], acc => if acc.isEmpty then [] else [String.mk acc.reverse]
  | c :: rest, acc =>
    if c = '\n' then String.mk (stripCrRev acc).reverse :: rustLinesAux rest []
    else rustLinesAux rest (c :: acc)

/-- Rust's `BufRead::lines()` on a fully decoded input string. -/
def rustLines (s : String) : List String := rustLinesAux s.data []

/-- Drop one trailing `'\r'` from a string (the normalization `lines()`
applies to a newline-terminated line). -/
def stripTrailingCr (s : String) : String := String.mk (stripCrRev s.data.reverse).reverse

/-- The parsed command line (`struct Cli`); `file` already carries clap's
`default_value = "-"` when the positional argument was omitted. -/
structure Cli where
  character : Option Char
  delimiter : Option Char
  file : String

/-- clap's handling of the positional `file` argument: an omitted argument
defaults to `"-"`. -/
def cliFile (fileArg : Option String) : String := fileArg.getD "-"

/-- What `main` is observed to do. -/
inductive MainResult where
  /-- `Cli::command().print_help()` followed by `process::exit(2)`. -/
  | usageExitTwo : MainResult
  /-- A panic (`unwrap` of a failed `File::open` or of an undecodable line). -/
  | panicked : MainResult
  /-- Normal termination with the rendered table output. -/
  | tableOutput : RenderedTable → MainResult
  /-- Normal termination with the delimited output lines. -/
  | csvOutput : List String → MainResult
  deriving DecidableEq

/-- Counting plus rendering, as `main` does after the input is chosen. -/
def runCountAndRender (args : Cli) (inputLines : List (Option String)) : MainResult :=
  let wc := match args.character with
    | some character => character_count_in_buf_reader inputLines character
    | none => word_count_in_buf_reader inputLines
  match wc with
  | none => MainResult.panicked
  | some word_count =>
    match args.delimiter with
    | none => MainResult.tableOutput (print_word_count_table word_count args.character)
    | some delimiter => MainResult.csvOutput (print_word_count_csv word_count delimiter)

/-- `fn main()`: pick the input source — on `file == "-"` refuse an
interactive terminal with help text and exit code 2, otherwise read stdin;
on a file path, a failed `File::open` panics — then count and render.
`stdinLines`/`fileLines` are the decoded line streams of the two possible
sources (`none` entries are undecodable lines; `fileLines = none` means the
file could not be opened). -/
def mainModel (args : Cli) (stdinIsTerminal : Bool)
    (stdinLines : List (Option String)) (fileLines : Option (List (Option String))) :
    MainResult :=
  if args.file = "-" then
    if stdinIsTerminal then MainResult.usageExitTwo
    else runCountAndRender args stdinLines
  else
    match fileLines with
    | none => MainResult.panicked
    | some ls => runCountAndRender args ls

/-- Split a character list at the FIRST occurrence of `d`: returns the part
before and the part after, or `none` when `d` does not occur. -/
def breakAtChar (d : Char) : List Char → Option (List Char × List Char)
  | [] => none
  | c :: rest =>
    if c = d then some ([], rest)
    else (breakAtChar d rest).map (fun p => (c :: p.1, p.2))

/-- The decimal value of a digit character, `none` for a non-digit. -/
def charDigit (c : Char) : Option Nat :=
  if 48 ≤ c.toNat ∧ c.toNat ≤ 57 then some (c.toNat - 48) else none

/-- Accumulating decimal parse of a digit string. -/
def parseNatAux : List Char → Nat → Option Nat
  | [], acc => some acc
  | c :: rest, acc =>
    match charDigit c with
    | none => none
    | some v => parseNatAux rest (acc * 10 + v)

/-- Parse a nonempty all-digit string as a natural number. -/
def parseNat (s : String) : Option Nat :=
  if s.data.isEmpty then none else parseNatAux s.data 0

/-- Parse one delimited output line back into a (Record, count) pair:
the Record is everything before the first delimiter occurrence, the count
is the decimal parse of everything after it. -/
def parseCsvLine (delimiter : Char) (line : String) : Option (String × Nat) :=
  (breakAtChar delimiter line.data).bind
    (fun p => (parseNat (String.mk p.2)).map (fun n => (String.mk p.1, n)))

/-! ## Lemmas about the frequency counter -/

theorem lookupCount_incrementCount (t : FrequencyTable) (w k : String) :
    lookupCount (incrementCount t w) k =
      lookupCount t k + if w = k then 1 else 0 := by
  induction t with
  | nil => by_cases h : w = k <;> simp [incrementCount, lookupCount, h]
  | cons p rest ih =>
    obtain ⟨k', c⟩ := p
    by_cases hw : k' = w
    · subst hw
      by_cases hk : k' = k <;> simp [incrementCount, lookupCount, hk]
    · by_cases hk : k' = k
      · have hwk : ¬ (w = k) := fun h => hw (hk.trans h.symm)
        have hkw : ¬ (k = w) := fun h => hw (hk.trans h)
        simp [incrementCount, lookupCount, hw, hk, hwk, hkw]
      · simp [incrementCount, lookupCount, hw, hk, ih]

theorem sum_incrementCount (t : FrequencyTable) (w : String) :
    ((incrementCount t w).map Prod.snd).sum = (t.map Prod.snd).sum + 1 := by
  induction t with
  | nil => simp [incrementCount]
  | cons p rest ih =>
    obtain ⟨k', c⟩ := p
    by_cases hw : k' = w
    · simp [incrementCount, hw, Nat.add_assoc, Nat.add_comm 1 _]
    · simp [incrementCount, hw, ih, Nat.add_assoc]

theorem mem_keys_incrementCount {t : FrequencyTable} {w x : String} :
    x ∈ (incrementCount t w).map Prod.fst ↔ x ∈ t.map Prod.fst ∨ x = w := by
  induction t with
  | nil => simp [incrementCount]
  | cons p rest ih =>
    obtain ⟨k', c⟩ := p
    by_cases hw : k' = w
    · subst hw
      constructor
      · intro h
        rcases (by simpa [incrementCount] using h) with h | h
        · exact Or.inl (by simp [h])
        · exact Or.inl (by simp [h])
      · intro h
        rcases h with h | h
        · simpa [incrementCount] using (by simpa using h)
        · simp [incrementCount, h]
    · simp only [incrementCount, if_neg hw, List.map_cons, List.mem_cons, ih]
      tauto

theorem nodup_keys_incrementCount {t : FrequencyTable} {w : String}
    (h : (t.map Prod.fst).Nodup) : ((incrementCount t w).map Prod.fst).Nodup := by
  induction t with
  | nil => simp [incrementCount]
  | cons p rest ih =>
    obtain ⟨k', c⟩ := p
    simp only [List.map_cons, List.nodup_cons] at h
    by_cases hw : k' = w
    · simpa [incrementCount, hw, List.nodup_cons] using h
    · simp only [incrementCount, if_neg hw, List.map_cons]
      refine List.nodup_cons.mpr ⟨?_, ih h.2⟩
      intro hmem
      rcases mem_keys_incrementCount.mp hmem with hmem | hmem
      · exact h.1 hmem
      · exact hw hmem

theorem wordCountAux_map_some (L : List String) :
    ∀ t, wordCountAux (L.map some) t = some (L.foldl incrementCount t) := by
  induction L with
  | nil => intro t; rfl
  | cons w rest ih => intro t; simpa [wordCountAux] using ih (incrementCount t w)

theorem lookupCount_foldl (L : List String) :
    ∀ (t : FrequencyTable) (k : String),
      lookupCount (L.foldl incrementCount t) k = lookupCount t k + L.count k := by
  induction L with
  | nil => intro t k; simp
  | cons w rest ih =>
    intro t k
    simp only [List.foldl_cons, ih, lookupCount_incrementCount, List.count_cons]
    by_cases h : w = k
    · simp [h, Nat.add_comm, Nat.add_assoc, Nat.add_left_comm]
    · simp [h, fun hb : (w == k) = true => h (by simpa using hb)]

theorem sum_foldl (L : List String) :
    ∀ t : FrequencyTable,
      ((L.foldl incrementCount t).map Prod.snd).sum = (t.map Prod.snd).sum + L.length := by
  induction L with
  | nil => intro t; simp
  | cons w rest ih =>
    intro t
    simp only [List.foldl_cons, ih, sum_incrementCount, List.length_cons]
    omega

theorem keys_foldl (L : List String) :
    ∀ (t : FrequencyTable) (p : String × Nat), p ∈ L.foldl incrementCount t →
      p.1 ∈ t.map Prod.fst ∨ p.1 ∈ L := by
  induction L with
  | nil => intro t p hp; exact Or.inl (List.mem_map_of_mem Prod.fst hp)
  | cons w rest ih =>
    intro t p hp
    rcases ih (incrementCount t w) p hp with h | h
    · rcases mem_keys_incrementCount.mp h with h | h
      · exact Or.inl h
      · exact Or.inr (by simp [h])
    · exact Or.inr (by simp [h])

theorem nodup_keys_foldl (L : List String) :
    ∀ t : FrequencyTable, (t.map Prod.fst).Nodup →
      ((L.foldl incrementCount t).map Prod.fst).Nodup := by
  induction L with
  | nil => intro t h; exact h
  | cons w rest ih => intro t h; exact ih _ (nodup_keys_incrementCount h)

/-! ## Character mode as word mode over derived records -/

theorem charCountAux_eq_wordCountAux (character : Char) (input : List (Option String)) :
    ∀ t, charCountAux character input t =
      wordCountAux (input.map (Option.map (charRecord character))) t := by
  induction input with
  | nil => intro t; rfl
  | cons o rest ih =>
    intro t
    cases o with
    | none => rfl
    | some line => simpa [charCountAux, wordCountAux] using ih _

/-! ## Decimal rendering and its parse -/

theorem natDigitsRevAux_zero (fuel : Nat) : natDigitsRevAux fuel 0 = [] := by
  cases fuel <;> simp [natDigitsRevAux]

theorem natDigitsRevAux_fuel :
    ∀ f1 f2 n, n ≤ f1 → n ≤ f2 → natDigitsRevAux f1 n = natDigitsRevAux f2 n := by
  intro f1
  induction f1 with
  | zero =>
    intro f2 n h1 _
    have hn : n = 0 := Nat.le_zero.mp h1
    subst hn
    simp [natDigitsRevAux_zero, natDigitsRevAux]
  | succ f ih =>
    intro f2 n h1 h2
    cases n with
    | zero => simp [natDigitsRevAux_zero]
    | succ m =>
      cases f2 with
      | zero => omega
      | succ f2' =>
        simp only [natDigitsRevAux, if_neg (Nat.succ_ne_zero m)]
        have hdiv : (m + 1) / 10 < m + 1 := Nat.div_lt_self (Nat.succ_pos m) (by norm_num)
        exact congrArg _ (ih f2' ((m + 1) / 10) (by omega) (by omega))

theorem natDigitsRev_pos {n : Nat} (h : 0 < n) :
    natDigitsRev n = digitChar (n % 10) :: natDigitsRev (n / 10) := by
  cases n with
  | zero => omega
  | succ m =>
    show natDigitsRevAux (m + 1) (m + 1) = _
    simp only [natDigitsRevAux, if_neg (Nat.succ_ne_zero m)]
    have hdiv : (m + 1) / 10 < m + 1 := Nat.div_lt_self (Nat.succ_pos m) (by norm_num)
    exact congrArg _ (natDigitsRevAux_fuel m ((m + 1) / 10) ((m + 1) / 10)
      (by omega) (by omega))

theorem charDigit_digitChar {d : Nat} (h : d < 10) : charDigit (digitChar d) = some d := by
  interval_cases d <;> rfl

theorem parseNatAux_append (l : List Char) (c : Char) :
    ∀ acc, parseNatAux (l ++ [c]) acc =
      (parseNatAux l acc).bind (fun v => (charDigit c).map (fun d => v * 10 + d)) := by
  induction l with
  | nil => intro acc; cases h : charDigit c <;> simp [parseNatAux, h]
  | cons x rest ih =>
    intro acc
    cases h : charDigit x with
    | none => simp [parseNatAux, h]
    | some v => simp [parseNatAux, h, ih]

theorem parseNatAux_digits :
    ∀ n, 0 < n → ∀ acc, parseNatAux (natDigitsRev n).reverse acc =
      some (acc * 10 ^ (natDigitsRev n).length + n) := by
  intro n
  induction n using Nat.strong_induction_on with
  | _ n ih =>
    intro hn acc
    have hmod : n % 10 < 10 := Nat.mod_lt n (by norm_num)
    by_cases hq : n / 10 = 0
    · have hlt10 : n < 10 := by
        rcases Nat.lt_or_ge n 10 with h | h
        · exact h
        · exact absurd hq (by have := Nat.div_le_div_right (c := 10) h; omega)
      have hmn : n % 10 = n := Nat.mod_eq_of_lt hlt10
      rw [natDigitsRev_pos hn, hq]
      have h0 : natDigitsRev 0 = [] := rfl
      rw [h0]
      simp [parseNatAux, charDigit_digitChar hmod, charDigit_digitChar hlt10, hmn]
    · have hlt : n / 10 < n := Nat.div_lt_self hn (by norm_num)
      have hq' : 0 < n / 10 := Nat.pos_of_ne_zero hq
      have hdm : n / 10 * 10 + n % 10 = n := by
        have := Nat.div_add_mod n 10
        omega
      have key : (acc * 10 ^ (natDigitsRev (n / 10)).length + n / 10) * 10 + n % 10 =
          acc * 10 ^ ((natDigitsRev (n / 10)).length + 1) + n := by
        rw [Nat.pow_succ]
        calc (acc * 10 ^ (natDigitsRev (n / 10)).length + n / 10) * 10 + n % 10
            = acc * 10 ^ (natDigitsRev (n / 10)).length * 10 + (n / 10 * 10 + n % 10) := by
              ring
          _ = acc * (10 ^ (natDigitsRev (n / 10)).length * 10) + n := by rw [hdm]; ring
      rw [natDigitsRev_pos hn, List.reverse_cons, parseNatAux_append,
        ih (n / 10) hlt hq' acc, charDigit_digitChar hmod, List.length_cons]
      exact congrArg some key

theorem string_mk_data (s : String) : String.mk s.data = s := by
  cases s
  rfl

theorem parseNat_natToString (n : Nat) : parseNat (natToString n) = some n := by
  by_cases h : n = 0
  · subst h; rfl
  · have hn : 0 < n := Nat.pos_of_ne_zero h
    have hne : natDigitsRev n ≠ [] := by rw [natDigitsRev_pos hn]; simp
    have hdata : (natToString n).data = (natDigitsRev n).reverse := by
      rw [natToString, if_neg h]
    rw [parseNat, hdata]
    have hrev : ((natDigitsRev n).reverse).isEmpty = false := by
      simp [List.isEmpty_iff, hne]
    rw [hrev]
    simp only [Bool.false_eq_true, if_false]
    rw [parseNatAux_digits n hn 0]
    simp

/-! ## The delimited-output line parse -/

theorem breakAtChar_append {d : Char} :
    ∀ l : List Char, d ∉ l → ∀ r, breakAtChar d (l ++ d :: r) = some (l, r) := by
  intro l
  induction l with
  | nil => intro _ r; simp [breakAtChar]
  | cons c rest ih =>
    intro h r
    have hc : ¬ (c = d) := fun hh => h (by simp [hh])
    have hrest : d ∉ rest := fun hh => h (by simp [hh])
    simp [breakAtChar, hc, ih hrest]

theorem parseCsvLine_inverts (d : Char) (r : String) (n : Nat) (h : d ∉ r.data) :
    parseCsvLine d (r ++ String.singleton d ++ natToString n) = some (r, n) := by
  have hdata : (r ++ String.singleton d ++ natToString n).data
      = r.data ++ d :: (natToString n).data := by
    simp [String.data_append, String.singleton]
  rw [parseCsvLine, hdata, breakAtChar_append r.data h]
  simp [string_mk_data, parseNat_natToString]

theorem csv_lines_parse (d : Char) :
    ∀ l : List (String × Nat), (∀ p ∈ l, d ∉ p.1.data) →
      (l.map (fun p => p.1 ++ String.singleton d ++ natToString p.2)).map (parseCsvLine d)
        = l.map some := by
  intro l
  induction l with
  | nil => intro _; rfl
  | cons p rest ih =>
    intro h
    simp only [List.map_cons]
    rw [parseCsvLine_inverts d p.1 p.2 (h p (by simp)), ih (fun q hq => h q (by simp [hq]))]

/-! ## Lemmas about the `lines()` model -/

theorem mem_stripCrRev {l : List Char} {x : Char} (h : x ∈ stripCrRev l) : x ∈ l := by
  cases l with
  | nil => simp [stripCrRev] at h
  | cons c rest =>
    by_cases hc : c = '\r'
    · rw [stripCrRev, if_pos hc] at h
      exact List.mem_cons_of_mem c h
    · rwa [stripCrRev, if_neg hc] at h

theorem rustLinesAux_no_newline :
    ∀ cs acc : List Char, '\n' ∉ acc → ∀ l ∈ rustLinesAux cs acc, '\n' ∉ l.data := by
  intro cs
  induction cs with
  | nil =>
    intro acc hacc l hl
    by_cases h : acc.isEmpty
    · simp [rustLinesAux, h] at hl
    · simp only [rustLinesAux, h, Bool.false_eq_true, if_false, List.mem_singleton] at hl
      subst hl
      simpa using fun hmem => hacc (List.mem_reverse.mp hmem)
  | cons c rest ih =>
    intro acc hacc l hl
    by_cases hc : c = '\n'
    · rw [rustLinesAux, if_pos hc] at hl
      rcases List.mem_cons.mp hl with hl | hl
      · subst hl
        simpa using fun hmem => hacc (mem_stripCrRev (List.mem_reverse.mp hmem))
      · exact ih [] (by simp) l hl
    · rw [rustLinesAux, if_neg hc] at hl
      refine ih (c :: acc) ?_ l hl
      intro hmem
      rcases List.mem_cons.mp hmem with hmem | hmem
      · exact hc hmem.symm
      · exact hacc hmem

theorem rustLinesAux_append_newline :
    ∀ cs acc : List Char,
      (cs = [] → acc ≠ [] ∧ acc.head? ≠ some '\r') →
      (cs ≠ [] → cs.getLast? ≠ some '\n' ∧ cs.getLast? ≠ some '\r') →
      rustLinesAux (cs ++ ['\n']) acc = rustLinesAux cs acc := by
  intro cs
  induction cs with
  | nil =>
    intro acc h1 _
    obtain ⟨hne, hhead⟩ := h1 rfl
    cases acc with
    | nil => exact absurd rfl hne
    | cons a as =>
      have ha : ¬ (a = '\r') := fun hh => hhead (by simp [hh])
      simp [rustLinesAux, stripCrRev, ha]
  | cons c rest ih =>
    intro acc _ h2
    obtain ⟨hlast_n, hlast_r⟩ := h2 (by simp)
    by_cases hc : c = '\n'
    · subst hc
      cases rest with
      | nil => exact absurd rfl hlast_n
      | cons r rs =>
        rw [List.getLast?_cons_cons] at hlast_n hlast_r
        simp only [List.cons_append, rustLinesAux, if_pos rfl]
        exact congrArg _ (ih [] (fun h => absurd h (List.cons_ne_nil r rs))
          (fun _ => ⟨hlast_n, hlast_r⟩))
    · cases rest with
      | nil =>
        have hcr : ¬ (c = '\r') := fun hh => hlast_r (by simp [hh])
        simp only [List.cons_append, rustLinesAux, if_neg hc]
        exact ih (c :: acc)
          (fun _ => ⟨List.cons_ne_nil c acc, by simp [hcr]⟩)
          (fun h => absurd rfl h)
      | cons r rs =>
        rw [List.getLast?_cons_cons] at hlast_n hlast_r
        simp only [List.cons_append, rustLinesAux, if_neg hc]
        exact ih (c :: acc) (fun h => absurd h (List.cons_ne_nil r rs))
          (fun _ => ⟨hlast_n, hlast_r⟩)

theorem rustLinesAux_single :
    ∀ cs acc : List Char, '\n' ∉ cs →
      rustLinesAux (cs ++ ['\n']) acc
        = [String.mk (stripCrRev (cs.reverse ++ acc)).reverse] := by
  intro cs
  induction cs with
  | nil => intro acc _; simp [rustLinesAux]
  | cons c rest ih =>
    intro acc h
    have hc : ¬ (c = '\n') := fun hh => h (by simp [hh])
    have hrest : '\n' ∉ rest := fun hh => h (by simp [hh])
    simp only [List.cons_append, rustLinesAux, if_neg hc]
    rw [show (c :: rest).reverse ++ acc = rest.reverse ++ (c :: acc) from by
      simp [List.append_assoc]]
    exact ih (c :: acc) hrest

theorem rustLines_append_newline (input : String) (h1 : input.data ≠ [])
    (h2 : input.data.getLast? ≠ some '\n') (h3 : input.data.getLast? ≠ some '\r') :
    rustLines (input ++ "\n") = rustLines input := by
  show rustLinesAux (input ++ "\n").data [] = rustLinesAux input.data []
  rw [String.data_append]
  exact rustLinesAux_append_newline input.data []
    (fun h => absurd h h1) (fun _ => ⟨h2, h3⟩)

theorem rustLines_single_line (s : String) (h : '\n' ∉ s.data) :
    rustLines (s ++ "\n") = [stripTrailingCr s] := by
  show rustLinesAux (s ++ "\n").data [] = _
  rw [String.data_append]
  rw [rustLinesAux_single s.data [] h]
  simp [stripTrailingCr]

theorem rustLinesAux_cons_line :
    ∀ cs acc rest : List Char, '\n' ∉ cs →
      rustLinesAux (cs ++ '\n' :: rest) acc
        = String.mk (stripCrRev (cs.reverse ++ acc)).reverse :: rustLinesAux rest [] := by
  intro cs
  induction cs with
  | nil => intro acc rest _; simp [rustLinesAux]
  | cons c cs' ih =>
    intro acc rest h
    have hc : ¬ (c = '\n') := fun hh => h (by simp [hh])
    have hcs : '\n' ∉ cs' := fun hh => h (by simp [hh])
    simp only [List.cons_append, rustLinesAux, if_neg hc]
    rw [show (c :: cs').reverse ++ acc = cs'.reverse ++ (c :: acc) from by
      simp [List.append_assoc]]
    exact ih (c :: acc) rest hcs

theorem rustLines_cons_line (s rest : String) (h : '\n' ∉ s.data) :
    rustLines (s ++ "\n" ++ rest) = stripTrailingCr s :: rustLines rest := by
  show rustLinesAux (s ++ "\n" ++ rest).data [] = _
  have hdata : (s ++ "\n" ++ rest).data = s.data ++ '\n' :: rest.data := by
    simp [String.data_append]
  rw [hdata, rustLinesAux_cons_line s.data [] rest.data h]
  simp [stripTrailingCr, rustLines]

theorem rustLinesAux_shift :
    ∀ cs acc : List Char, '\n' ∉ cs →
      rustLinesAux cs acc = rustLinesAux [] (cs.reverse ++ acc) := by
  intro cs
  induction cs with
  | nil => intro acc _; simp
  | cons c cs' ih =>
    intro acc h
    have hc : ¬ (c = '\n') := fun hh => h (by simp [hh])
    have hcs : '\n' ∉ cs' := fun hh => h (by simp [hh])
    simp only [rustLinesAux, if_neg hc]
    rw [show (c :: cs').reverse ++ acc = cs'.reverse ++ (c :: acc) from by
      simp [List.append_assoc]]
    exact ih (c :: acc) hcs

theorem rustLines_no_newline_id (u : String) (hne : u.data ≠ []) (hnl : '\n' ∉ u.data) :
    rustLines u = [u] := by
  show rustLinesAux u.data [] = [u]
  rw [rustLinesAux_shift u.data [] hnl]
  have hemp : (u.data.reverse ++ []).isEmpty = false := by
    simp [List.isEmpty_iff, hne]
  simp only [rustLinesAux, hemp, Bool.false_eq_true, if_false]
  simp [string_mk_data]

theorem wordCountAux_abort :
    ∀ (pre : List (Option String)) (post : List (Option String)) (t : FrequencyTable),
      wordCountAux (pre ++ none :: post) t = none := by
  intro pre
  induction pre with
  | nil => intro post t; rfl
  | cons o rest ih =>
    intro post t
    cases o with
    | none => rfl
    | some w => simpa [wordCountAux] using ih post (incrementCount t w)

theorem charCountAux_abort (c : Char) :
    ∀ (pre : List (Option String)) (post : List (Option String)) (t : FrequencyTable),
      charCountAux c (pre ++ none :: post) t = none := by
  intro pre
  induction pre with
  | nil => intro post t; rfl
  | cons o rest ih =>
    intro post t
    cases o with
    | none => rfl
    | some w => simpa [charCountAux] using ih post _

/-! ## The claims -/

/-- C1: for every finite sequence of input lines `L` processed in word/line
mode, `word_count_in_buf_reader` succeeds and returns a table mapping each
distinct line value to exactly its number of occurrences in `L` (keys are
unique, every key occurs in `L`, and a key absent from `L` has count 0 via
`lookupCount`), and the sum of all counts equals the length of `L`. -/
theorem word_count_frequency_correct (L : List String) :
    ∃ t : FrequencyTable,
      word_count_in_buf_reader (L.map some) = some t ∧
      (∀ k : String, lookupCount t k = L.count k) ∧
      (∀ p ∈ t, p.1 ∈ L) ∧
      (t.map Prod.fst).Nodup ∧
      (t.map Prod.snd).sum = L.length := by
  refine ⟨L.foldl incrementCount [], wordCountAux_map_some L [], ?_, ?_, ?_, ?_⟩
  · intro k
    simpa [lookupCount] using lookupCount_foldl L [] k
  · intro p hp
    rcases keys_foldl L [] p hp with h | h
    · simp at h
    · exact h
  · exact nodup_keys_foldl L [] (by simp)
  · simpa using sum_foldl L []

/-- C2, counterexample: the spec's Scenario 2 claims per-line `;`-counts
`[4,4,3,3,5,4]`, but the records actually derived from the six lines are
`["4","4","4","3","3","5"]` (the third line `w;o;;;rd1` contains four
semicolons, not three). -/
theorem character_records_scenario_cex :
    ["w;o;r;d;1", "w;o;r;d;2", "w;o;;;rd1", "wo;r;d;3", "w;o;;rd2",
        "w;o;r;d;2;"].map (charRecord ';') = ["4", "4", "4", "3", "3", "5"] ∧
    ["4", "4", "4", "3", "3", "5"] ≠ ["4", "4", "3", "3", "5", "4"] := by
  constructor
  · decide
  · decide

/-- C2, amended: character mode derives for each line the decimal string of
the number of occurrences of the target character, and the table tallies how
many lines produced each distinct occurrence-count string; for Scenario 2
with target `;` the per-line records are `["4","4","4","3","3","5"]` and the
table is `{"4": 3, "3": 2, "5": 1}`. -/
theorem character_count_frequency_amended (L : List String) (c : Char) :
    ∃ t : FrequencyTable,
      character_count_in_buf_reader (L.map some) c = some t ∧
      (∀ k : String, lookupCount t k = ((L.map (charRecord c)).count k)) ∧
      (∀ p ∈ t, p.1 ∈ L.map (charRecord c)) ∧
      (t.map Prod.snd).sum = L.length ∧
      ["w;o;r;d;1", "w;o;r;d;2", "w;o;;;rd1", "wo;r;d;3", "w;o;;rd2",
          "w;o;r;d;2;"].map (charRecord ';') = ["4", "4", "4", "3", "3", "5"] ∧
      character_count_in_buf_reader
          (["w;o;r;d;1", "w;o;r;d;2", "w;o;;;rd1", "wo;r;d;3", "w;o;;rd2",
            "w;o;r;d;2;"].map some) ';'
        = some [("4", 3), ("3", 2), ("5", 1)] := by
  refine ⟨(L.map (charRecord c)).foldl incrementCount [], ?_, ?_, ?_, ?_, by decide, by decide⟩
  · show charCountAux c (L.map some) [] = _
    rw [charCountAux_eq_wordCountAux]
    have hmm : (L.map some).map (Option.map (charRecord c))
        = (L.map (charRecord c)).map some := by
      simp [List.map_map, Function.comp]
    rw [hmm]
    exact wordCountAux_map_some (L.map (charRecord c)) []
  · intro k
    simpa [lookupCount] using lookupCount_foldl (L.map (charRecord c)) [] k
  · intro p hp
    rcases keys_foldl (L.map (charRecord c)) [] p hp with h | h
    · simp at h
    · exact h
  · simpa using sum_foldl (L.map (charRecord c)) []

/-- C3: the ranked sequence of (Record, count) pairs produced before
rendering is non-increasing by count (whenever one entry appears before
another its count is at least the other's), and both the table renderer and
the delimited renderer render exactly that ranked sequence; nothing is said
about the relative order of equal counts. -/
theorem ranked_entries_sorted_desc (t : FrequencyTable) (c : Option Char) (d : Char) :
    List.Pairwise (fun a b : String × Nat => b.2 ≤ a.2) (rankEntries t) ∧
    (print_word_count_table t c).rows
      = (rankEntries t).map (fun p => [p.1, natToString p.2]) ∧
    print_word_count_csv t d
      = (rankEntries t).map (fun p => p.1 ++ String.singleton d ++ natToString p.2) :=
  ⟨List.sorted_insertionSort rankLe t, rfl, rfl⟩

/-- C4, counterexample: for Scenario 1's table the delimited output is
`["word2,3", "word1,2", "word3,1"]` — there is no `word,count` header line,
contrary to the claimed output. -/
theorem csv_header_cex :
    word_count_in_buf_reader
        (["word1", "word2", "word1", "word3", "word2", "word2"].map some)
      = some [("word1", 2), ("word2", 3), ("word3", 1)] ∧
    print_word_count_csv [("word1", 2), ("word2", 3), ("word3", 1)] ','
      = ["word2,3", "word1,2", "word3,1"] ∧
    ["word2,3", "word1,2", "word3,1"]
      ≠ ["word,count", "word2,3", "word1,2", "word3,1"] := by
  refine ⟨by decide, by decide, by decide⟩

/-- C4, amended: the delimited rendering consists of exactly one
newline-terminated line `<Record><d><count>` per table entry (no header
line), with no quoting or escaping of `d` inside Record values; for
Scenario 1's input in word mode with delimiter `,` the output is
`word2,3\nword1,2\nword3,1`. -/
theorem csv_lines_per_entry_amended (t : FrequencyTable) (d : Char) :
    (print_word_count_csv t d).length = t.length ∧
    (∀ p ∈ t, (p.1 ++ String.singleton d ++ natToString p.2) ∈ print_word_count_csv t d) ∧
    (∀ line ∈ print_word_count_csv t d,
      ∃ p ∈ t, line = p.1 ++ String.singleton d ++ natToString p.2) ∧
    print_word_count_csv [("word1", 2), ("word2", 3), ("word3", 1)] ','
      = ["word2,3", "word1,2", "word3,1"] := by
  refine ⟨?_, ?_, ?_, by decide⟩
  · simp [print_word_count_csv, rankEntries]
  · intro p hp
    exact List.mem_map_of_mem _ ((List.mem_insertionSort rankLe).mpr hp)
  · intro line hline
    rcases List.mem_map.mp hline with ⟨p, hp, hline⟩
    exact ⟨p, (List.mem_insertionSort rankLe).mp hp, hline.symm⟩

/-- C5, counterexample: the delimited rendering of the empty frequency table
is empty output — not the claimed two-token header line. -/
theorem empty_csv_cex :
    print_word_count_csv [] ',' = [] ∧ ([] : List String) ≠ ["word,count"] :=
  ⟨rfl, by decide⟩

/-- C5, amended: rendering is total over every frequency table: the table
format always has its header row and title separator and one data row per
entry (so none for the empty table), while the delimited format emits one
line per entry and therefore no output at all for the empty table. -/
theorem rendering_total_amended (t : FrequencyTable) (c : Option Char) (d : Char) :
    (print_word_count_table t c).header
      = [if c.isSome then "Occurrences" else "Word", "Count"] ∧
    (print_word_count_table t c).hasTitleSeparator = true ∧
    (print_word_count_table t c).rows.length = t.length ∧
    (print_word_count_csv t d).length = t.length ∧
    (print_word_count_table [] c).rows = [] ∧
    print_word_count_csv [] d = [] := by
  refine ⟨rfl, rfl, ?_, ?_, rfl, rfl⟩
  · simp [print_word_count_table, rankEntries]
  · simp [print_word_count_csv, rankEntries]

/-- C6: for every frequency table whose Records do not contain the chosen
delimiter, splitting each delimited-output data line at the delimiter (the
Record is everything before its first occurrence, the count the decimal
parse of the rest) recovers exactly the (Record, count) pairs of the table:
line by line they parse to the ranked entries, and a pair is recovered iff
it is in the table. -/
theorem csv_round_trip (t : FrequencyTable) (d : Char) (h : ∀ p ∈ t, d ∉ p.1.data) :
    (print_word_count_csv t d).map (parseCsvLine d) = (rankEntries t).map some ∧
    (∀ p : String × Nat,
      some p ∈ (print_word_count_csv t d).map (parseCsvLine d) ↔ p ∈ t) := by
  have hmap : (print_word_count_csv t d).map (parseCsvLine d) = (rankEntries t).map some :=
    csv_lines_parse d (rankEntries t)
      (fun p hp => h p ((List.mem_insertionSort rankLe).mp hp))
  refine ⟨hmap, ?_⟩
  intro p
  rw [hmap]
  constructor
  · intro hp
    rcases List.mem_map.mp hp with ⟨q, hq, hpq⟩
    obtain rfl : q = p := Option.some.inj hpq
    exact (List.mem_insertionSort rankLe).mp hq
  · intro hp
    exact List.mem_map_of_mem some ((List.mem_insertionSort rankLe).mpr hp)

/-- Witness for `csv_round_trip` at the table `[("a", 2), ("b", 1)]` with
delimiter `,`. -/
theorem csv_round_trip_witness :
    (∀ p ∈ ([("a", 2), ("b", 1)] : FrequencyTable), ',' ∉ p.1.data) ∧
    ((print_word_count_csv [("a", 2), ("b", 1)] ',').map (parseCsvLine ',')
        = (rankEntries [("a", 2), ("b", 1)]).map some ∧
      (∀ p : String × Nat,
        some p ∈ (print_word_count_csv [("a", 2), ("b", 1)] ',').map (parseCsvLine ',')
          ↔ p ∈ ([("a", 2), ("b", 1)] : FrequencyTable))) :=
  ⟨by decide, csv_round_trip [("a", 2), ("b", 1)] ',' (by decide)⟩

/-- C7: whenever the file argument is `-` (or omitted, which defaults to
`-`) and standard input is an interactive terminal, `main` prints the usage
text and exits with status 2, regardless of what could be read from either
source — no counting happens. -/
theorem stdin_tty_guard (character delimiter : Option Char) (fileArg : Option String)
    (stdinLines : List (Option String)) (fileLines : Option (List (Option String)))
    (h : cliFile fileArg = "-") :
    mainModel ⟨character, delimiter, cliFile fileArg⟩ true stdinLines fileLines
      = MainResult.usageExitTwo := by
  simp [mainModel, h]

/-- Witness for `stdin_tty_guard`: omitted file argument, interactive
stdin. -/
theorem stdin_tty_guard_witness :
    cliFile none = "-" ∧
    mainModel ⟨none, none, cliFile none⟩ true [some "x"] none
      = MainResult.usageExitTwo :=
  ⟨rfl, stdin_tty_guard none none none [some "x"] none rfl⟩

/-- C8: if any input line fails to decode, counting aborts in both modes: no
table is produced (`none`), and the outcome does not depend on anything after
the first failing line. -/
theorem decode_error_aborts (pre post post' : List (Option String)) (c : Char)
    (_h : ∀ x ∈ pre, x.isSome) :
    word_count_in_buf_reader (pre ++ none :: post) = none ∧
    character_count_in_buf_reader (pre ++ none :: post) c = none ∧
    word_count_in_buf_reader (pre ++ none :: post)
      = word_count_in_buf_reader (pre ++ none :: post') ∧
    character_count_in_buf_reader (pre ++ none :: post) c
      = character_count_in_buf_reader (pre ++ none :: post') c := by
  refine ⟨wordCountAux_abort pre post [], charCountAux_abort c pre post [], ?_, ?_⟩
  · rw [show word_count_in_buf_reader (pre ++ none :: post)
        = wordCountAux (pre ++ none :: post) [] from rfl,
      wordCountAux_abort pre post []]
    exact (wordCountAux_abort pre post' []).symm
  · rw [show character_count_in_buf_reader (pre ++ none :: post) c
        = charCountAux c (pre ++ none :: post) [] from rfl,
      charCountAux_abort c pre post []]
    exact (charCountAux_abort c pre post' []).symm

/-- Witness for `decode_error_aborts`: one good line, then a decode error,
then one more line. -/
theorem decode_error_aborts_witness :
    (∀ x ∈ [some "a"], x.isSome) ∧
    (word_count_in_buf_reader ([some "a"] ++ none :: [some "b"]) = none ∧
      character_count_in_buf_reader ([some "a"] ++ none :: [some "b"]) 'x' = none ∧
      word_count_in_buf_reader ([some "a"] ++ none :: [some "b"])
        = word_count_in_buf_reader ([some "a"] ++ none :: []) ∧
      character_count_in_buf_reader ([some "a"] ++ none :: [some "b"]) 'x'
        = character_count_in_buf_reader ([some "a"] ++ none :: []) 'x') :=
  ⟨by decide, decode_error_aborts [some "a"] [some "b"] [] 'x' (by decide)⟩

/-- C9: character-mode counting equals word-mode counting composed with the
per-line map sending each line to the decimal string of the number of
occurrences of the target character in it (decode errors map to decode
errors). -/
theorem character_count_is_word_count_of_records
    (input : List (Option String)) (c : Char) :
    character_count_in_buf_reader input c
      = word_count_in_buf_reader (input.map (Option.map (charRecord c))) :=
  charCountAux_eq_wordCountAux c input []

/-- C10, counterexample: the input `"abc\r"` (no final newline) yields the
single Record `"abc\r"`, which ends in `'\r'` — the trailing `'\r'` is NOT
stripped from an unterminated final line; moreover appending a final
newline is observable: `"a\n\n"` and `"a\n"` yield different tables (the
extra terminator creates an empty-string Record). -/
theorem line_terminator_cex :
    rustLines "abc\r" = ["abc\r"] ∧
    word_count_in_buf_reader ((rustLines "abc\r").map some) = some [("abc\r", 1)] ∧
    "abc\r".data.getLast? = some '\r' ∧
    word_count_in_buf_reader ((rustLines "a\n\n").map some)
      ≠ word_count_in_buf_reader ((rustLines "a\n").map some) := by
  refine ⟨by decide, by decide, by decide, by decide⟩

/-- C10, amended: line terminators are stripped in this weaker sense — for
EVERY input, no Record ever contains `'\n'`; every line terminated by
`'\n'` (anywhere in any input) has one trailing `'\r'` (if any) stripped
before becoming a Record; an unterminated final line is emitted verbatim
(so it keeps a trailing `'\r'`); and appending a final `'\n'` to a nonempty
input ending in neither `'\n'` nor `'\r'` leaves the word-mode frequency
table unchanged (no extra empty-string Record). -/
theorem line_terminator_amended (input : String) (h1 : input.data ≠ [])
    (h2 : input.data.getLast? ≠ some '\n') (h3 : input.data.getLast? ≠ some '\r') :
    (∀ t : String, ∀ l ∈ rustLines t, '\n' ∉ l.data) ∧
    (∀ s rest : String, '\n' ∉ s.data →
      rustLines (s ++ "\n" ++ rest) = stripTrailingCr s :: rustLines rest) ∧
    (∀ u : String, u.data ≠ [] → '\n' ∉ u.data → rustLines u = [u]) ∧
    word_count_in_buf_reader ((rustLines (input ++ "\n")).map some)
      = word_count_in_buf_reader ((rustLines input).map some) := by
  refine ⟨fun t => rustLinesAux_no_newline t.data [] (by simp),
    fun s rest hs => rustLines_cons_line s rest hs,
    fun u hne hnl => rustLines_no_newline_id u hne hnl, ?_⟩
  rw [rustLines_append_newline input h1 h2 h3]

/-- Witness for `line_terminator_amended` at `input := "ab"`. -/
theorem line_terminator_amended_witness :
    ("ab".data ≠ [] ∧ "ab".data.getLast? ≠ some '\n' ∧
      "ab".data.getLast? ≠ some '\r') ∧
    ((∀ t : String, ∀ l ∈ rustLines t, '\n' ∉ l.data) ∧
      (∀ s rest : String, '\n' ∉ s.data →
        rustLines (s ++ "\n" ++ rest) = stripTrailingCr s :: rustLines rest) ∧
      (∀ u : String, u.data ≠ [] → '\n' ∉ u.data → rustLines u = [u]) ∧
      word_count_in_buf_reader ((rustLines ("ab" ++ "\n")).map some)
        = word_count_in_buf_reader ((rustLines "ab").map some)) :=
  ⟨by decide, line_terminator_amended "ab" (by decide) (by decide) (by decide)⟩
